import Mathlib

/-!
Shallow embedding of the interactive line chart's data-transformation and
view-window core:

* `calculateConversionRate`, `processData`, `aggregateByWeek`,
  `getVariationKey` from `src/utils/dataProcessor.ts`;
* `computeVisibleRange` (the `visibleDataRange` memo) and `computeDomain`
  (the `yAxisDomain` memo) from `src/components/Chart/Chart.tsx`.

JavaScript numbers are modelled as rationals extended with `NaN` and the two
signed infinities (`JSNum`); JS arithmetic on these values is given by
`JSNum.add`, `JSNum.mul`, `JSNum.div`.  `Number(x.toFixed(2))` is modelled by
`toFixed2` (round half up at two decimal digits, the tie rule of
`Number.prototype.toFixed` for the non-negative values that occur here), and
the `isNaN(v) || !isFinite(v) ? 0 : v` guard by `coerceFinite`.
-/

namespace LineChart

/-- A JavaScript number: NaN, +Infinity, -Infinity, or a finite value
(modelled as an exact rational). -/
inductive JSNum where
  | nan : JSNum
  | posInf : JSNum
  | negInf : JSNum
  | fin : ℚ → JSNum
deriving DecidableEq, Repr, Inhabited

namespace JSNum

/-- JS `isFinite` (together with `!isNaN`): true exactly on finite values. -/
def isFinite : JSNum → Bool
  | fin _ => true
  | _ => false

/-- JS addition on the extended number line. -/
def add : JSNum → JSNum → JSNum
  | nan, _ => nan
  | _, nan => nan
  | posInf, negInf => nan
  | negInf, posInf => nan
  | posInf, _ => posInf
  | negInf, _ => negInf
  | fin _, posInf => posInf
  | fin _, negInf => negInf
  | fin a, fin b => fin (a + b)

/-- JS multiplication on the extended number line (`0 * Infinity` is NaN). -/
def mul : JSNum → JSNum → JSNum
  | nan, _ => nan
  | _, nan => nan
  | posInf, posInf => posInf
  | posInf, negInf => negInf
  | negInf, posInf => negInf
  | negInf, negInf => posInf
  | posInf, fin q => if q = 0 then nan else if 0 < q then posInf else negInf
  | negInf, fin q => if q = 0 then nan else if 0 < q then negInf else posInf
  | fin q, posInf => if q = 0 then nan else if 0 < q then posInf else negInf
  | fin q, negInf => if q = 0 then nan else if 0 < q then negInf else posInf
  | fin a, fin b => fin (a * b)

/-- JS division on the extended number line (`0/0` is NaN, `x/0` is a signed
infinity for `x ≠ 0`; the model's single zero stands for JS `+0`). -/
def div : JSNum → JSNum → JSNum
  | nan, _ => nan
  | _, nan => nan
  | posInf, posInf => nan
  | posInf, negInf => nan
  | negInf, posInf => nan
  | negInf, negInf => nan
  | posInf, fin q => if q < 0 then negInf else posInf
  | negInf, fin q => if q < 0 then posInf else negInf
  | fin _, posInf => fin 0
  | fin _, negInf => fin 0
  | fin a, fin b =>
      if b = 0 then (if a = 0 then nan else if 0 < a then posInf else negInf)
      else fin (a / b)

end JSNum

/-- Rounding to two decimal digits: the exact-value content of
`Number(x.toFixed(2))` on a finite value (round to nearest, ties up). -/
def round2 (q : ℚ) : ℚ := (round (q * 100) : ℚ) / 100

/-- `Number(x.toFixed(2))`: rounds a finite value to 2 decimal digits; NaN and
the infinities survive the string round trip unchanged. -/
def toFixed2 : JSNum → JSNum
  | JSNum.fin q => JSNum.fin (round2 q)
  | v => v

/-- The guard `isNaN(value) || !isFinite(value) ? 0 : value` used in
`processData` and `aggregateByWeek`: coerces any non-finite value to 0. -/
def coerceFinite : JSNum → JSNum
  | JSNum.fin q => JSNum.fin q
  | _ => JSNum.fin 0

/-- `calculateConversionRate` (dataProcessor, lines 3-6):
`if (visits === 0) return 0; return (conversions / visits) * 100;`. -/
def calculateConversionRate (conversions visits : JSNum) : JSNum :=
  if visits = JSNum.fin 0 then JSNum.fin 0
  else (conversions.div visits).mul (JSNum.fin 100)

/-- The full per-key rate computation stored by `processData` (lines 20-27):
`calculateConversionRate`, then `Number(rate.toFixed(2))`, then the
non-finite-to-0 guard.  This is the spec's `computeRate`. -/
def computeRate (conversions visits : JSNum) : JSNum :=
  coerceFinite (toFixed2 (calculateConversionRate conversions visits))

/-- `Variation` from `types.ts`: an optional numeric id and a name. -/
structure Variation where
  id : Option Int
  name : String
deriving DecidableEq, Repr

/-- `getVariationKey` (dataProcessor, lines 79-81):
`variation.id?.toString() || '0'` — an absent id gives `'0'` via optional
chaining, and `(0).toString() = "0"` is truthy so it passes `|| '0'`
unchanged (an empty string would be falsy, hence the guard in the model). -/
def getVariationKey (variation : Variation) : String :=
  match variation.id with
  | none => "0"
  | some i => let s := toString i; if s = "" then "0" else s

/-- `DataPoint` from `types.ts`: a date plus per-variation-key visit and
conversion counts (`Record<string, number>` modelled as association lists). -/
structure DataPoint where
  date : String
  visits : List (String × JSNum)
  conversions : List (String × JSNum)
deriving DecidableEq, Repr

/-- `ChartData` from `types.ts`. -/
structure ChartData where
  variations : List Variation
  data : List DataPoint
deriving DecidableEq, Repr

/-- `ProcessedDataPoint` from `types.ts`: a date plus one numeric field per
variation key; the dynamic key-indexed fields are modelled as an association
list separate from the `date` field. -/
structure ProcessedDataPoint where
  date : String
  values : List (String × JSNum)
deriving DecidableEq, Repr

instance : Inhabited ProcessedDataPoint := ⟨⟨"", []⟩⟩

/-- `TimeRange` from `types.ts`. -/
inductive TimeRange where
  | day : TimeRange
  | week : TimeRange
deriving DecidableEq, Repr

/-- `LineStyle` from `types.ts`. -/
inductive LineStyle where
  | line : LineStyle
  | smooth : LineStyle
  | area : LineStyle
deriving DecidableEq, Repr

/-- `record[key] || 0`: a missing key (undefined) and the falsy values NaN and
0 are replaced by 0; any other value passes through. -/
def orZero : Option JSNum → JSNum
  | none => JSNum.fin 0
  | some JSNum.nan => JSNum.fin 0
  | some v => v

/-- JS object property assignment `m[k] = v`: overwrites an existing entry in
place, else appends in insertion order. -/
def jsAssign (m : List (String × JSNum)) (k : String) (v : JSNum) :
    List (String × JSNum) :=
  if m.any (fun p => p.1 == k) then
    m.map (fun p => if p.1 == k then (k, v) else p)
  else m ++ [(k, v)]

/-- The body of the outer `forEach` of `processData` (lines 15-30): build one
processed point from one raw data point, storing `computeRate` of the
looked-up counts under each selected variation key. -/
def buildPoint (dataPoint : DataPoint) (selectedVariations : List String) :
    ProcessedDataPoint :=
  { date := dataPoint.date,
    values := selectedVariations.foldl (fun m variationKey =>
      let visits := orZero (dataPoint.visits.lookup variationKey)
      let conversions := orZero (dataPoint.conversions.lookup variationKey)
      jsAssign m variationKey (computeRate conversions visits)) [] }

/-- The chunking loop of `aggregateByWeek` (lines 44-49):
`for (let i = 0; i < data.length; i += 7) weekGroups.push(data.slice(i, i+7))`
(the emptiness guard inside the loop never fires since `i < data.length`).
Written with explicit seven-element patterns so the recursion is structural;
`chunks7_cons` below recovers the slice formulation `take 7 / drop 7`. -/
def chunks7 : List ProcessedDataPoint → List (List ProcessedDataPoint)
  | [] => []
  | a :: b :: c :: d :: e :: f :: g :: rest =>
      [a, b, c, d, e, f, g] :: chunks7 rest
  | l => [l]

/-- `Object.keys(week[0]).filter(key => key !== 'date')` (line 60): the
variation keys carried by the first point of a chunk. -/
def variationKeys (week : List ProcessedDataPoint) : List String :=
  ((week.headD default).values.map Prod.fst).filter (fun k => k ≠ "date")

/-- The per-key aggregation of `aggregateByWeek` (lines 62-71): the chunk's
values under the key, restricted to defined finite ones, averaged with JS
arithmetic (0 when none), rounded to 2 digits, coerced finite. -/
def weekValue (week : List ProcessedDataPoint) (key : String) : JSNum :=
  let values : List JSNum :=
    (week.map (fun point => point.values.lookup key)).filterMap
      (fun v => match v with
        | some w => if w.isFinite then some w else none
        | none => none)
  let average : JSNum :=
    if 0 < values.length then
      (values.foldl JSNum.add (JSNum.fin 0)).div (JSNum.fin values.length)
    else JSNum.fin 0
  coerceFinite (toFixed2 average)

/-- One weekly point (lines 54-71): labelled with the single date of a
one-point chunk, else `"<first date> - <last date>"`, and carrying
`weekValue` under each variation key of the chunk's first point. -/
def weekPoint (week : List ProcessedDataPoint) : ProcessedDataPoint :=
  { date :=
      if week.length = 1 then (week.headD default).date
      else (week.headD default).date ++ " - " ++ (week.getLastD default).date,
    values := (variationKeys week).map (fun k => (k, weekValue week k)) }

/-- `aggregateByWeek` (lines 39-77): chunk into weeks of 7, emit one weekly
point per non-empty chunk (the `forEach` early-returns on an empty chunk). -/
def aggregateByWeek (data : List ProcessedDataPoint) :
    List ProcessedDataPoint :=
  (chunks7 data).filterMap
    (fun week => if week.isEmpty then none else some (weekPoint week))

/-- `processData` (lines 8-37): one processed point per raw data point, then
weekly aggregation when the time range is `'week'`. -/
def processData (chartData : ChartData) (selectedVariations : List String)
    (timeRange : TimeRange) : List ProcessedDataPoint :=
  let processed := chartData.data.map
    (fun dataPoint => buildPoint dataPoint selectedVariations)
  if timeRange = TimeRange.week then aggregateByWeek processed else processed

/-- The `visibleDataRange` memo (Chart.tsx, lines 92-106): `null` when
`zoomLevel <= 1`, else the inclusive index pair
`[floor(clamp(panOffset, 0, maxOffset)),
  min(startIndex + visiblePoints - 1, totalPoints - 1)]`
with `visiblePoints = floor(totalPoints / zoomLevel)` and
`maxOffset = max(0, totalPoints - visiblePoints)`. -/
def computeVisibleRange (totalPoints : ℕ) (zoomLevel panOffset : ℚ) :
    Option (ℤ × ℤ) :=
  if zoomLevel ≤ 1 then none
  else
    let visiblePoints : ℤ := ⌊(totalPoints : ℚ) / zoomLevel⌋
    let maxOffset : ℤ := max 0 ((totalPoints : ℤ) - visiblePoints)
    let clampedOffset : ℚ := max 0 (min panOffset (maxOffset : ℚ))
    let startIndex : ℤ := ⌊clampedOffset⌋
    let endIndex : ℤ := min (startIndex + visiblePoints - 1) ((totalPoints : ℤ) - 1)
    some (startIndex, endIndex)

/-- The value-collection loop of the `yAxisDomain` memo (Chart.tsx, lines
109-121): for each visible point and each selected key, push the value when
it is a defined, finite number. -/
def collectValues (dataToUse : List ProcessedDataPoint)
    (selectedVariations : List String) : List ℚ :=
  dataToUse.flatMap (fun point =>
    selectedVariations.filterMap (fun key =>
      match point.values.lookup key with
      | some (JSNum.fin q) => some q
      | _ => none))

/-- The `yAxisDomain` memo (Chart.tsx, lines 108-177).  All collected values
are finite by the filter, so every later quantity is an exact rational and
the code's `isNaN`/`isFinite` fallbacks (lines 129-131 and 169-174) are dead
branches with no counterpart in the model. -/
def computeDomain (visiblePoints : List ProcessedDataPoint)
    (selectedVariations : List String) (lineStyle : LineStyle) : ℚ × ℚ :=
  match collectValues visiblePoints selectedVariations with
  | [] => (0, 100)
  | v :: vs =>
    let mn : ℚ := vs.foldl min v
    let mx : ℚ := vs.foldl max v
    let range : ℚ := mx - mn
    let isSmoothMode : Bool := lineStyle = LineStyle.smooth
    let pads : ℚ × ℚ :=
      if 0 < range then
        if isSmoothMode then (range * 0.2, range * 0.1)
        else (range * 0.1, range * 0.1)
      else if 0 < mx then
        if isSmoothMode then (mx * 0.2, mx * 0.1)
        else (mx * 0.1, mx * 0.1)
      else (1, 1)
    let paddingTop : ℚ := if pads.1 < 1 then 1 else pads.1
    let paddingBottom : ℚ := if pads.2 < 1 then 1 else pads.2
    let minDomain : ℚ :=
      if isSmoothMode then max (-5) (mn - paddingBottom - 5)
      else max 0 (mn - paddingBottom)
    let maxDomain : ℚ := mx + paddingTop
    (minDomain, maxDomain)

/-! ### Concrete inputs used by the witnesses -/

/-- A ten-day processed series with dates `d1`, …, `d10`. -/
def sampleWeekData : List ProcessedDataPoint :=
  (List.range 10).map
    (fun i => ⟨"d" ++ toString (i + 1), [("a", JSNum.fin (i + 1))]⟩)

/-- A two-day chunk whose only key `a` is 0 on both days. -/
def zeroWeek : List ProcessedDataPoint :=
  [⟨"d1", [("a", JSNum.fin 0)]⟩, ⟨"d2", [("a", JSNum.fin 0)]⟩]

/-- Three visible points with values 10, 20, 30 under key `a`. -/
def samplePoints : List ProcessedDataPoint :=
  [⟨"d1", [("a", JSNum.fin 10)]⟩, ⟨"d2", [("a", JSNum.fin 20)]⟩,
   ⟨"d3", [("a", JSNum.fin 30)]⟩]

/-! ### Helper lemmas -/

theorem chunks7_cons (l : List ProcessedDataPoint) (h : l ≠ []) :
    chunks7 l = l.take 7 :: chunks7 (l.drop 7) := by
  rcases l with _ | ⟨a, _ | ⟨b, _ | ⟨c, _ | ⟨d, _ | ⟨e, _ | ⟨f, _ | ⟨g, rest⟩⟩⟩⟩⟩⟩⟩ <;>
    first
    | exact absurd rfl h
    | simp [chunks7]

theorem chunks7_length_aux :
    ∀ (n : ℕ) (l : List ProcessedDataPoint), l.length ≤ n →
      (chunks7 l).length = (l.length + 6) / 7 := by
  intro n
  induction n with
  | zero =>
    intro l hl
    have : l = [] := List.eq_nil_of_length_eq_zero (Nat.le_zero.mp hl)
    subst this
    simp [chunks7]
  | succ n ih =>
    intro l hl
    rcases hnil : l with _ | ⟨x, xs⟩
    · simp [chunks7]
    · rw [← hnil, chunks7_cons l (by simp [hnil])]
      have hlen : (l.drop 7).length = l.length - 7 := by simp
      have hpos : 1 ≤ l.length := by simp [hnil]
      have := ih (l.drop 7) (by omega)
      simp only [List.length_cons, this, hlen]
      omega

theorem chunks7_length (l : List ProcessedDataPoint) :
    (chunks7 l).length = (l.length + 6) / 7 :=
  chunks7_length_aux l.length l le_rfl

theorem chunks7_getElem_aux :
    ∀ (n : ℕ) (l : List ProcessedDataPoint), l.length ≤ n →
      ∀ (i : ℕ) (h : i < (chunks7 l).length),
        (chunks7 l)[i] = (l.drop (7 * i)).take 7 := by
  intro n
  induction n with
  | zero =>
    intro l hl i h
    have : l = [] := List.eq_nil_of_length_eq_zero (Nat.le_zero.mp hl)
    subst this
    simp [chunks7] at h
  | succ n ih =>
    intro l hl i h
    cases l with
    | nil => simp [chunks7] at h
    | cons x xs =>
      have hne : x :: xs ≠ [] := by simp
      have hc := chunks7_cons (x :: xs) hne
      simp only [hc] at h ⊢
      cases i with
      | zero => simp
      | succ j =>
        have hlt : j < (chunks7 ((x :: xs).drop 7)).length := by
          simpa using h
        have hrec := ih ((x :: xs).drop 7)
          (by simp only [List.length_drop, List.length_cons] at hl ⊢; omega) j hlt
        simp only [List.getElem_cons_succ, hrec, List.drop_drop]
        congr 2
        omega

theorem chunks7_getElem (l : List ProcessedDataPoint) (i : ℕ)
    (h : i < (chunks7 l).length) :
    (chunks7 l)[i] = (l.drop (7 * i)).take 7 :=
  chunks7_getElem_aux l.length l le_rfl i h

theorem chunks7_ne_nil (l : List ProcessedDataPoint) :
    ∀ c ∈ chunks7 l, c ≠ [] := by
  intro c hc
  obtain ⟨i, hi, hget⟩ := List.mem_iff_getElem.mp hc
  rw [chunks7_getElem l i hi] at hget
  subst hget
  intro hnil
  have htake : ((l.drop (7 * i)).take 7).length = min 7 (l.length - 7 * i) := by
    simp
  rw [hnil] at htake
  simp at htake
  rw [chunks7_length l] at hi
  omega

theorem aggregateByWeek_eq_map (data : List ProcessedDataPoint) :
    aggregateByWeek data = (chunks7 data).map weekPoint := by
  unfold aggregateByWeek
  have h : ∀ w ∈ chunks7 data,
      (if w.isEmpty then none else some (weekPoint w)) = some (weekPoint w) := by
    intro w hw
    have hne := chunks7_ne_nil data w hw
    simp [List.isEmpty_iff, hne]
  exact List.filterMap_eq_map_iff_forall_eq_some.mpr h

theorem lookup_mem {l : List (String × JSNum)} {k : String} {v : JSNum}
    (h : l.lookup k = some v) : (k, v) ∈ l := by
  induction l with
  | nil => simp [List.lookup] at h
  | cons p es ih =>
    obtain ⟨a, b⟩ := p
    by_cases hk : k = a
    · subst hk
      simp [List.lookup] at h
      subst h
      exact List.mem_cons_self _ _
    · have hba : (k == a) = false := beq_eq_false_iff_ne.mpr hk
      simp [List.lookup, hba] at h
      exact List.mem_cons_of_mem _ (ih h)

theorem lookup_map_self (ks : List String) (f : String → JSNum) (k : String)
    (hk : k ∈ ks) :
    (ks.map (fun x => (x, f x))).lookup k = some (f k) := by
  induction ks with
  | nil => simp at hk
  | cons a t ih =>
    by_cases hka : k = a
    · subst hka
      simp [List.lookup]
    · have hba : (k == a) = false := beq_eq_false_iff_ne.mpr hka
      rcases List.mem_cons.mp hk with h | h
      · exact absurd h hka
      · simp [List.lookup, hba, ih h]

theorem foldl_add_fin (qs : List ℚ) (a : ℚ) :
    (qs.map JSNum.fin).foldl JSNum.add (JSNum.fin a) = JSNum.fin (a + qs.sum) := by
  induction qs generalizing a with
  | nil => simp
  | cons q t ih =>
    simp only [List.map_cons, List.foldl_cons, JSNum.add, ih, List.sum_cons]
    congr 1
    ring

theorem foldl_min_le (vs : List ℚ) (v : ℚ) : vs.foldl min v ≤ v := by
  induction vs generalizing v with
  | nil => simp
  | cons a t ih =>
    simp only [List.foldl_cons]
    exact le_trans (ih (min v a)) (min_le_left v a)

theorem le_foldl_max (vs : List ℚ) (v : ℚ) : v ≤ vs.foldl max v := by
  induction vs generalizing v with
  | nil => simp
  | cons a t ih =>
    simp only [List.foldl_cons]
    exact le_trans (le_max_left v a) (ih (max v a))

theorem foldl_min_nonneg (vs : List ℚ) (v : ℚ) (hv : 0 ≤ v)
    (hall : ∀ a ∈ vs, 0 ≤ a) : 0 ≤ vs.foldl min v := by
  induction vs generalizing v with
  | nil => simpa
  | cons a t ih =>
    simp only [List.foldl_cons]
    exact ih (min v a) (le_min hv (hall a (by simp)))
      (fun b hb => hall b (by simp [hb]))

/-! ### Claim theorems -/

/-- C1, counterexample: at `seriesLength = 1`, `zoomLevel = 2` (so
`1 < zoomLevel ≤ 5`), `panOffset = 0`, the computed range is `(0, -1)`:
`endIndex = -1 < startIndex = 0`, violating the claimed invariant
`0 ≤ startIndex ≤ endIndex ≤ seriesLength - 1`. -/
theorem computeVisibleRange_claim_false :
    computeVisibleRange 1 2 0 = some (0, -1) ∧ ¬ ((0 : ℤ) ≤ (-1 : ℤ)) := by
  constructor
  · with_unfolding_all decide
  · decide

/-- C1, amended: for every `seriesLength > 0`, every `zoomLevel` with
`1 < zoomLevel ≤ 5` **and `zoomLevel ≤ seriesLength`** (so the window width
`floor(seriesLength / zoomLevel)` is at least 1), and every `panOffset`,
the computed range satisfies
`0 ≤ startIndex ≤ endIndex ≤ seriesLength - 1`. -/
theorem computeVisibleRange_within_bounds (seriesLength : ℕ)
    (zoomLevel panOffset : ℚ) (hn : 0 < seriesLength) (hz1 : 1 < zoomLevel)
    (hz5 : zoomLevel ≤ 5) (hzn : zoomLevel ≤ (seriesLength : ℚ)) {s e : ℤ}
    (h : computeVisibleRange seriesLength zoomLevel panOffset = some (s, e)) :
    0 ≤ s ∧ s ≤ e ∧ e ≤ (seriesLength : ℤ) - 1 := by
  have hz0 : (0 : ℚ) < zoomLevel := lt_trans one_pos hz1
  unfold computeVisibleRange at h
  rw [if_neg (not_le.mpr hz1)] at h
  simp only [Option.some.injEq, Prod.mk.injEq] at h
  obtain ⟨hs, he⟩ := h
  rw [← hs, ← he]
  set vp : ℤ := ⌊(seriesLength : ℚ) / zoomLevel⌋ with hvp
  have hvp1 : 1 ≤ vp := by
    rw [hvp]
    refine Int.le_floor.mpr ?_
    push_cast
    rw [le_div_iff₀ hz0]
    linarith
  have hvpn : vp ≤ (seriesLength : ℤ) := by
    rw [hvp]
    calc ⌊(seriesLength : ℚ) / zoomLevel⌋
        ≤ ⌊(seriesLength : ℚ)⌋ :=
          Int.floor_le_floor (div_le_self (by positivity) (le_of_lt hz1))
      _ = (seriesLength : ℤ) := Int.floor_natCast seriesLength
  set mo : ℤ := max 0 ((seriesLength : ℤ) - vp) with hmo
  have hmo' : mo = (seriesLength : ℤ) - vp := by
    rw [hmo]
    exact max_eq_right (by omega)
  set cf : ℤ := ⌊max 0 (min panOffset (mo : ℚ))⌋ with hcf
  have hcf0 : 0 ≤ cf := by
    rw [hcf]
    exact Int.le_floor.mpr (by exact_mod_cast le_max_left _ _)
  have hcfmo : cf ≤ mo := by
    rw [hcf]
    calc ⌊max 0 (min panOffset (mo : ℚ))⌋
        ≤ ⌊(mo : ℚ)⌋ := by
          apply Int.floor_le_floor
          apply max_le
          · exact_mod_cast (by omega : (0 : ℤ) ≤ mo)
          · exact min_le_right _ _
      _ = mo := Int.floor_intCast mo
  refine ⟨hcf0, le_min (by omega) (by omega), min_le_right _ _⟩

/-- C1, witness of the amended theorem at `seriesLength = 100`,
`zoomLevel = 2`, `panOffset = 0`, where the range is `(0, 49)`. -/
theorem computeVisibleRange_within_bounds_witness :
    0 ≤ (0 : ℤ) ∧ (0 : ℤ) ≤ (49 : ℤ) ∧ (49 : ℤ) ≤ ((100 : ℕ) : ℤ) - 1 :=
  computeVisibleRange_within_bounds 100 2 0 (by norm_num) (by norm_num)
    (by norm_num) (by norm_num) (by with_unfolding_all decide)

/-- C2, counterexample: with a non-empty raw series and an empty
selected-key set, `processData` returns one date-only point per record, not
an empty sequence. -/
theorem processData_empty_keys_not_nil :
    processData ⟨[], [⟨"2024-01-01", [], []⟩]⟩ [] TimeRange.day
        = [⟨"2024-01-01", []⟩] ∧
      processData ⟨[], [⟨"2024-01-01", [], []⟩]⟩ [] TimeRange.day ≠ [] := by
  constructor
  · with_unfolding_all decide
  · with_unfolding_all decide

/-- C2, amended: for every granularity and key set, if the raw-record
sequence is empty then `processData` returns an empty sequence (and, being a
total function, raises no exception); an empty selected-key set alone yields
one date-only point per record instead. -/
theorem processData_nil_data (variations : List Variation)
    (selectedKeys : List String) (timeRange : TimeRange) :
    processData ⟨variations, []⟩ selectedKeys timeRange = [] := by
  cases timeRange <;> simp [processData, aggregateByWeek, chunks7]

/-- C3: for non-negative finite `(c, v)` with `v > 0`, the per-key rate
stored by `processData` (the spec's `computeRate`) equals `(c / v) * 100`
rounded to 2 decimal digits. -/
theorem computeRate_eq_round2 (c v : ℚ) (hc : 0 ≤ c) (hv : 0 < v) :
    computeRate (JSNum.fin c) (JSNum.fin v)
      = JSNum.fin (round2 (c / v * 100)) := by
  have hv0 : v ≠ 0 := ne_of_gt hv
  simp [computeRate, calculateConversionRate, JSNum.div, JSNum.mul, toFixed2,
    coerceFinite, hv0]

/-- C3, witness at `c = 50`, `v = 200`. -/
theorem computeRate_eq_round2_witness :
    (0 : ℚ) ≤ 50 ∧ (0 : ℚ) < 200 ∧
      computeRate (JSNum.fin 50) (JSNum.fin 200)
        = JSNum.fin (round2 (50 / 200 * 100)) :=
  ⟨by norm_num, by norm_num,
    computeRate_eq_round2 50 200 (by norm_num) (by norm_num)⟩

/-- C4: for every pair of inputs (including NaN, infinite or negative
values), the stored rate is finite — never NaN or ±Infinity — and whenever
the raw division result is non-finite it is coerced to 0. -/
theorem computeRate_never_nonFinite (c v : JSNum) :
    (computeRate c v).isFinite = true ∧
      ((calculateConversionRate c v).isFinite = false →
        computeRate c v = JSNum.fin 0) := by
  constructor
  · unfold computeRate
    cases h : calculateConversionRate c v <;>
      simp [toFixed2, coerceFinite, JSNum.isFinite]
  · intro hnf
    unfold computeRate
    cases h : calculateConversionRate c v <;>
      simp_all [toFixed2, coerceFinite, JSNum.isFinite]

/-- C4, witness: `NaN / 1` is non-finite and the stored rate is coerced
to 0. -/
theorem computeRate_never_nonFinite_witness :
    computeRate JSNum.nan (JSNum.fin 1) = JSNum.fin 0 :=
  (computeRate_never_nonFinite JSNum.nan (JSNum.fin 1)).2
    (by with_unfolding_all decide)

/-- C5: with granularity `'day'`, `processData` returns one point per raw
record, in order, each carrying the date of its record (no sorting, no
dropping). -/
theorem processData_day_preserves_dates (chartData : ChartData)
    (selectedKeys : List String) :
    (processData chartData selectedKeys TimeRange.day).length
        = chartData.data.length ∧
      (processData chartData selectedKeys TimeRange.day).map
          ProcessedDataPoint.date
        = chartData.data.map DataPoint.date := by
  constructor
  · simp [processData]
  · simp only [processData, if_neg (by simp : ¬ TimeRange.day = TimeRange.week),
      List.map_map]
    rfl

/-- C6: for a non-empty day-level series of length `n`, `aggregateByWeek`
emits exactly `ceil(n / 7)` weekly points, one per consecutive
non-overlapping 7-chunk in chunk order (the last chunk possibly shorter,
never dropped); a one-point chunk is labelled with its date, a larger chunk
with `"<first date> - <last date>"`. -/
theorem aggregateByWeek_weekly_points (data : List ProcessedDataPoint)
    (hne : data ≠ []) :
    (aggregateByWeek data).length = (data.length + 6) / 7 ∧
      ∀ (i : ℕ) (h : i < (aggregateByWeek data).length),
        (aggregateByWeek data)[i].date =
          (if ((data.drop (7 * i)).take 7).length = 1 then
            (((data.drop (7 * i)).take 7).headD default).date
          else
            (((data.drop (7 * i)).take 7).headD default).date ++ " - " ++
              (((data.drop (7 * i)).take 7).getLastD default).date) := by
  have hmap := aggregateByWeek_eq_map data
  constructor
  · rw [hmap, List.length_map, chunks7_length]
  · intro i h
    have hi : i < (chunks7 data).length := by
      rw [hmap, List.length_map] at h
      exact h
    simp only [hmap, List.getElem_map]
    rw [chunks7_getElem data i hi]
    rfl

/-- C6, witness: the ten-day series yields `(10 + 6) / 7 = 2` weekly points,
the second labelled `"d8 - d10"`. -/
theorem aggregateByWeek_weekly_points_witness :
    (aggregateByWeek sampleWeekData).length = (sampleWeekData.length + 6) / 7 ∧
      ((aggregateByWeek sampleWeekData).getD 1 default).date = "d8 - d10" :=
  ⟨(aggregateByWeek_weekly_points sampleWeekData
      (by with_unfolding_all decide)).1,
    by with_unfolding_all decide⟩

/-- The finite, defined values of a chunk under a key: the exact rational
content of the filter on lines 63-65 of `aggregateByWeek`
(`!isNaN(val) && val !== undefined && isFinite(val)`). -/
def finiteRatValues (week : List ProcessedDataPoint) (key : String) :
    List ℚ :=
  (week.map (fun point => point.values.lookup key)).filterMap
    (fun v => match v with
      | some (JSNum.fin q) => some q
      | _ => none)

/-- C7: the weekly value stored for a key of the chunk equals the arithmetic
mean of the key's finite, defined values across the chunk's points, rounded
to 2 decimal digits; with zero such values the stored value is 0 (the mean
defaults to 0) — in all cases the stored value is a finite number, never
NaN. -/
theorem weekPoint_value_is_mean (week : List ProcessedDataPoint)
    (key : String) (hk : key ∈ variationKeys week) :
    (weekPoint week).values.lookup key =
      some (JSNum.fin (round2
        (if finiteRatValues week key = [] then 0
         else (finiteRatValues week key).sum
            / (finiteRatValues week key).length))) := by
  have hlk := lookup_map_self (variationKeys week) (weekValue week) key hk
  rw [show (weekPoint week).values
      = (variationKeys week).map (fun k => (k, weekValue week k)) from rfl,
    hlk]
  congr 1
  unfold weekValue
  have hvals : (week.map (fun point => point.values.lookup key)).filterMap
      (fun v => match v with
        | some w => if w.isFinite then some w else none
        | none => none)
      = (finiteRatValues week key).map JSNum.fin := by
    unfold finiteRatValues
    rw [List.map_filterMap]
    apply List.filterMap_congr
    intro v _
    rcases v with _ | ⟨w⟩
    · rfl
    · cases w <;> rfl
  simp only [hvals]
  rcases hqs : finiteRatValues week key with _ | ⟨q, qs⟩
  · simp [toFixed2, coerceFinite, round2]
  · have hlpos : 0 < ((q :: qs).map JSNum.fin).length := by simp
    have hne0 : ((qs.length : ℚ) + 1) ≠ 0 := by positivity
    rw [if_pos hlpos, foldl_add_fin (q :: qs) 0]
    simp [JSNum.div, toFixed2, coerceFinite, hne0]

/-- C7, witness: a two-day chunk with value 0 for key `a` on both days
aggregates to exactly 0, not NaN. -/
theorem weekPoint_value_is_mean_witness :
    (weekPoint zeroWeek).values.lookup "a" = some (JSNum.fin 0) := by
  rw [weekPoint_value_is_mean zeroWeek "a" (by with_unfolding_all decide)]
  with_unfolding_all decide

/-- A value that is finite and non-negative (the shape of every numeric
field of a `ProcessedPoint` per the spec's data model). -/
def isNonnegFin : JSNum → Bool
  | JSNum.fin q => decide (0 ≤ q)
  | _ => false

theorem collectValues_nonneg (pts : List ProcessedDataPoint)
    (keys : List String)
    (hall : ∀ p ∈ pts, ∀ kv ∈ p.values, isNonnegFin kv.2 = true) :
    ∀ q ∈ collectValues pts keys, 0 ≤ q := by
  intro q hq
  unfold collectValues at hq
  rw [List.mem_flatMap] at hq
  obtain ⟨p, hp, hq2⟩ := hq
  rw [List.mem_filterMap] at hq2
  obtain ⟨key, _, hmatch⟩ := hq2
  rcases hlk : p.values.lookup key with _ | w
  · rw [hlk] at hmatch
    simp at hmatch
  · rw [hlk] at hmatch
    cases w with
    | fin r =>
      simp only [Option.some.injEq] at hmatch
      subst hmatch
      have hnn := hall p hp (key, JSNum.fin r) (lookup_mem hlk)
      simpa [isNonnegFin] using hnn
    | nan => simp at hmatch
    | posInf => simp at hmatch
    | negInf => simp at hmatch

theorem one_le_floorOne (x : ℚ) : (1 : ℚ) ≤ (if x < 1 then 1 else x) := by
  by_cases hx : x < 1
  · simp [hx]
  · simp only [if_neg hx]
    linarith [not_lt.mp hx]

theorem domain_pair_le (mn mx PT PB : ℚ) (b : Bool) (hmn0 : 0 ≤ mn)
    (hmnmx : mn ≤ mx) (hPT : 1 ≤ PT) (hPB : 1 ≤ PB) :
    (if b then max (-5) (mn - PB - 5) else max 0 (mn - PB)) ≤ mx + PT := by
  cases b
  · simp only [Bool.false_eq_true, if_neg, ite_false]
    exact max_le (by linarith) (by linarith)
  · simp only [ite_true]
    exact max_le (by linarith) (by linarith)

/-- C8: when every numeric field of the visible points is finite and
non-negative, the computed axis domain satisfies `min ≤ max` (and both
bounds are rationals, hence finite, by construction of the model). -/
theorem computeDomain_min_le_max (visiblePoints : List ProcessedDataPoint)
    (selectedKeys : List String) (mode : LineStyle)
    (hall : ∀ p ∈ visiblePoints, ∀ kv ∈ p.values, isNonnegFin kv.2 = true) :
    (computeDomain visiblePoints selectedKeys mode).1 ≤
      (computeDomain visiblePoints selectedKeys mode).2 := by
  have hpos := collectValues_nonneg visiblePoints selectedKeys hall
  unfold computeDomain
  split
  · norm_num
  · rename_i v vs heq
    rw [heq] at hpos
    have hv0 : 0 ≤ v := hpos v (by simp)
    have hmn_le : vs.foldl min v ≤ v := foldl_min_le vs v
    have hv_le : v ≤ vs.foldl max v := le_foldl_max vs v
    have hmn0 : 0 ≤ vs.foldl min v :=
      foldl_min_nonneg vs v hv0 (fun a ha => hpos a (by simp [ha]))
    dsimp only
    exact domain_pair_le _ _ _ _ _ hmn0 (le_trans hmn_le hv_le)
      (one_le_floorOne _) (one_le_floorOne _)

/-- C8, witness at the three visible values 10, 20, 30 under key `a` in
`'line'` mode. -/
theorem computeDomain_min_le_max_witness :
    (computeDomain samplePoints ["a"] LineStyle.line).1 ≤
      (computeDomain samplePoints ["a"] LineStyle.line).2 :=
  computeDomain_min_le_max samplePoints ["a"] LineStyle.line
    (by with_unfolding_all decide)

/-- C9: when no finite numeric value exists among the visible points under
the selected keys, the computed axis domain is exactly `(0, 100)`. -/
theorem computeDomain_default_when_empty
    (visiblePoints : List ProcessedDataPoint) (selectedKeys : List String)
    (mode : LineStyle)
    (h : collectValues visiblePoints selectedKeys = []) :
    computeDomain visiblePoints selectedKeys mode = (0, 100) := by
  unfold computeDomain
  rw [h]

/-- C9, witness: an empty visible point set. -/
theorem computeDomain_default_when_empty_witness :
    computeDomain [] ["a"] LineStyle.smooth = (0, 100) :=
  computeDomain_default_when_empty [] ["a"] LineStyle.smooth rfl

/-- C10: a variant with an absent id and a variant with id 0 both derive the
variant key `"0"`, and processing with both keys selected collapses to a
single `"0"` entry — the second assignment overwrites the first. -/
theorem getVariationKey_zero_collision (n m : String) (record : DataPoint) :
    getVariationKey ⟨none, n⟩ = "0" ∧
      getVariationKey ⟨some 0, m⟩ = "0" ∧
      buildPoint record [getVariationKey ⟨none, n⟩, getVariationKey ⟨some 0, m⟩]
        = buildPoint record ["0"] := by
  refine ⟨rfl, rfl, ?_⟩
  show buildPoint record ["0", "0"] = buildPoint record ["0"]
  unfold buildPoint
  simp [jsAssign]

end LineChart
